import Mathlib

/-!
Verification of the strata-node SDK and the StrataDB engine contract it
exposes.

The binding layer (`src/lib/errors.js` and the prototype-wrapping module) is
embedded directly from the JavaScript source.  The engine itself (the native
strata-core library) is not part of this repository's sources, so its data
model and operations are modelled from the specification: every such
definition carries a doc comment starting with `Modelled from the spec:`.
-/

namespace StrataNode

/-! ### Generic association-list helpers

Keyed state (key to version list, branch name to branch data, collection name
to collection) is modelled as an association list with first-occurrence
lookup and update-or-append write, mirroring insertion-ordered JS maps. -/

def alistGet {β : Type} : List (String × β) → String → Option β
  | [], _ => none
  | (k', v) :: rest, k => if k = k' then some v else alistGet rest k

def alistSet {β : Type} : List (String × β) → String → β → List (String × β)
  | [], k, b => [(k, b)]
  | (k', v) :: rest, k, b =>
      if k = k' then (k', b) :: rest else (k', v) :: alistSet rest k b

/-! ### Error layer: shallow embedding of `src/lib/errors.js` -/

/-- A raw error value thrown by the native binding, as observed by
`toTypedError`: only its `name` and `message` fields are consulted
(`err.message` directly, and both via `String(err)`). -/
structure NativeError where
  name : String
  message : String
deriving DecidableEq

/-- A typed error of the `StrataError` family from `src/lib/errors.js`:
its class name (`err.name`), machine-readable `code` and human-readable
`message`. -/
structure StrataError where
  name : String
  code : String
  message : String
deriving DecidableEq

/-- `new StrataError(message, code)` -/
def mkStrataError (message code : String) : StrataError :=
  ⟨"StrataError", code, message⟩

/-- `new NotFoundError(message)` -/
def mkNotFoundError (message : String) : StrataError :=
  ⟨"NotFoundError", "NOT_FOUND", message⟩

/-- `new ValidationError(message)` -/
def mkValidationError (message : String) : StrataError :=
  ⟨"ValidationError", "VALIDATION", message⟩

/-- `new ConflictError(message)` -/
def mkConflictError (message : String) : StrataError :=
  ⟨"ConflictError", "CONFLICT", message⟩

/-- `new StateError(message)` -/
def mkStateError (message : String) : StrataError :=
  ⟨"StateError", "STATE", message⟩

/-- `new ConstraintError(message)` -/
def mkConstraintError (message : String) : StrataError :=
  ⟨"ConstraintError", "CONSTRAINT", message⟩

/-- `new AccessDeniedError(message)` -/
def mkAccessDeniedError (message : String) : StrataError :=
  ⟨"AccessDeniedError", "ACCESS_DENIED", message⟩

/-- `new IoError(message)` -/
def mkIoError (message : String) : StrataError :=
  ⟨"IoError", "IO", message⟩

/-- `ERROR_MAP` from `src/lib/errors.js` lines 74-82: code to typed error
constructor. -/
def ERROR_MAP (code : String) : Option (String → StrataError) :=
  if code = "NOT_FOUND" then some mkNotFoundError
  else if code = "VALIDATION" then some mkValidationError
  else if code = "CONFLICT" then some mkConflictError
  else if code = "STATE" then some mkStateError
  else if code = "CONSTRAINT" then some mkConstraintError
  else if code = "ACCESS_DENIED" then some mkAccessDeniedError
  else if code = "IO" then some mkIoError
  else none

/-- The seven taxonomy categories (the domain of `ERROR_MAP`). -/
def knownCodes : List String :=
  ["NOT_FOUND", "VALIDATION", "CONFLICT", "STATE", "CONSTRAINT",
   "ACCESS_DENIED", "IO"]

/-- Class name of the typed error produced for each known category. -/
def classNameOf (code : String) : String :=
  if code = "NOT_FOUND" then "NotFoundError"
  else if code = "VALIDATION" then "ValidationError"
  else if code = "CONFLICT" then "ConflictError"
  else if code = "STATE" then "StateError"
  else if code = "CONSTRAINT" then "ConstraintError"
  else if code = "ACCESS_DENIED" then "AccessDeniedError"
  else if code = "IO" then "IoError"
  else "StrataError"

/-- Character class of the regex group `[A-Z_]+`. -/
def isCodeChar (c : Char) : Bool :=
  (('A' ≤ c) && (c ≤ 'Z')) || c = '_'

/-- The JavaScript regex class `\s`, restricted to the ASCII whitespace
characters (space, tab, line feed, vertical tab, form feed, carriage
return); the Unicode members of `\s` are not modelled. -/
def isJsSpace (c : Char) : Bool :=
  c = ' ' || c = '\t' || c = '\n' || c = '\x0b' || c = '\x0c' || c = '\r'

/-- The anchored match `msg.match(/^\[([A-Z_]+)\]\s*(.*)/s)` of
`toTypedError`, on the character list of the message: an opening bracket, a
nonempty run of `[A-Z_]`, a closing bracket, then the rest of the message
with the whitespace run after the bracket stripped.  Returns the `code`
group and the `rest` group, or `none` when the pattern does not match. -/
def parseCodeTag (l : List Char) : Option (String × String) :=
  match l with
  | [] => none
  | ch :: cs =>
      if ch = '[' then
        if (cs.takeWhile isCodeChar).isEmpty then none
        else
          match cs.dropWhile isCodeChar with
          | [] => none
          | d :: tail =>
              if d = ']' then
                some (String.mk (cs.takeWhile isCodeChar),
                      String.mk (tail.dropWhile isJsSpace))
              else none
      else none

/-- The regex match applied to a message string. -/
def matchCodeTag (msg : String) : Option (String × String) :=
  parseCodeTag msg.data

/-- JavaScript `String(err)` for an error value, i.e.
`Error.prototype.toString`: `name` and `message` joined by `": "`, with the
join dropped when either side is empty. -/
def errToString (e : NativeError) : String :=
  if e.name = "" then e.message
  else if e.message = "" then e.name
  else e.name ++ ": " ++ e.message

/-- `err.message || String(err)` — the message actually parsed by
`toTypedError` (the fallback fires when `err.message` is empty or absent). -/
def resolveMessage (e : NativeError) : String :=
  if e.message = "" then errToString e else e.message

/-- `toTypedError` from `src/lib/errors.js` lines 94-107: parse the
`[CODE] message` prefix of the native error's message and rebuild the typed
error; unrecognized codes keep the code verbatim in a generic `StrataError`;
unmatched messages are wrapped with code `"UNKNOWN"`. -/
def toTypedError (err : NativeError) : StrataError :=
  let msg := resolveMessage err
  match matchCodeTag msg with
  | some (code, rest) =>
      match ERROR_MAP code with
      | some mk => mk rest
      | none => mkStrataError rest code
  | none => mkStrataError msg "UNKNOWN"

/-! ### Wrapper layer: the prototype-wrapping module

Each native async method is a fallible function from its argument tuple to a
result; a JavaScript rejection is the `Except.error` branch.  `wrapMethod`
embeds the `try { return await original.apply(this, args) } catch (err)
{ throw toTypedError(err) }` body installed over every prototype method, and
also the identical `try/catch` bodies of the `Strata.open`, `Strata.cache`
and `setup` wrappers. -/

def wrapMethod {α β : Type} (f : α → Except NativeError β) :
    α → Except StrataError β :=
  fun args =>
    match f args with
    | Except.ok b => Except.ok b
    | Except.error e => Except.error (toTypedError e)

/-- The wrapping loop over `methodNames`: every own prototype method other
than `constructor` is replaced by its `wrapMethod` version under the same
name. -/
def wrapProto {α β : Type} (proto : List (String × (α → Except NativeError β))) :
    List (String × (α → Except StrataError β)) :=
  (proto.filter (fun p => decide (p.1 ≠ "constructor"))).map
    (fun p => (p.1, wrapMethod p.2))

/-! ### Engine model: Version Store

The engine itself lives in the native strata-core library, outside this
repository's sources; the definitions below are modelled from the
specification (sections 3, 4.1, 4.6). -/

/-- Modelled from the spec: the immutable `Version` record of the Version
Store — a value (with `none` as a tombstone), a version number and a
timestamp.  The value type is a parameter standing for any JSON value. -/
structure KVRec (Val : Type) where
  value : Option Val
  version : Nat
  timestamp : Nat
deriving DecidableEq

/-- A versioned key entry map: key name to its ordered sequence of versions
(insertion order = version order). -/
abbrev KVMap (Val : Type) : Type := List (String × List (KVRec Val))

/-- The version sequence recorded for a key (empty when the key was never
written). -/
def kvVersions {Val : Type} (m : KVMap Val) (k : String) : List (KVRec Val) :=
  (alistGet m k).getD []

/-- Append a new version record to a key's history. -/
def kvmapPut {Val : Type} (m : KVMap Val) (k : String) (r : KVRec Val) :
    KVMap Val :=
  alistSet m k (kvVersions m k ++ [r])

/-- Modelled from the spec: the write operations of the Version Store on a
single (branch, space) context — `put` appends a value version, `delete`
appends a tombstone version. -/
inductive WOp (Val : Type) where
  | put (key : String) (value : Val)
  | del (key : String)
deriving DecidableEq

/-- The key a write operation touches. -/
def WOp.key {Val : Type} : WOp Val → String
  | .put k _ => k
  | .del k => k

/-- Modelled from the spec: the Version Store state of one (branch, space)
context — the versioned entries, the next version number (version numbers
are strictly increasing and never reused) and the monotonic clock supplying
timestamps. -/
structure Store (Val : Type) where
  kv : KVMap Val
  nextVersion : Nat
  clock : Nat
deriving DecidableEq

/-- Modelled from the spec: a fresh store with no entries; counters start
at 1 (version numbers returned by `put` are positive). -/
def initStore {Val : Type} : Store Val := ⟨[], 1, 1⟩

/-- Modelled from the spec: applying one write — the record is stamped with
the current version number and clock, both of which then advance. -/
def applyW {Val : Type} (s : Store Val) : WOp Val → Store Val
  | .put k v =>
      ⟨kvmapPut s.kv k ⟨some v, s.nextVersion, s.clock⟩,
       s.nextVersion + 1, s.clock + 1⟩
  | .del k =>
      ⟨kvmapPut s.kv k ⟨none, s.nextVersion, s.clock⟩,
       s.nextVersion + 1, s.clock + 1⟩

/-- Run a write trace from a given store. -/
def runWFrom {Val : Type} (s : Store Val) (ws : List (WOp Val)) : Store Val :=
  ws.foldl applyW s

/-- Run a write trace from the initial store. -/
def runW {Val : Type} (ws : List (WOp Val)) : Store Val :=
  runWFrom initStore ws

/-- Modelled from the spec: `get(key)` — the latest version's value, with a
tombstone or an absent key giving `none`. -/
def kvGet {Val : Type} (s : Store Val) (k : String) : Option Val :=
  ((kvVersions s.kv k).getLast?).bind KVRec.value

/-- Modelled from the spec: `get(key, asOf)` — the latest version whose
timestamp is at most `asOf`, with a tombstone in that window, or no version
yet at that time, giving `none`. -/
def kvGetAsOf {Val : Type} (s : Store Val) (k : String) (asOf : Nat) :
    Option Val :=
  (((kvVersions s.kv k).filter
      (fun r => decide (r.timestamp ≤ asOf))).getLast?).bind KVRec.value

/-- Modelled from the spec: `history(key)` — the key's full version
sequence, or `none` for a key never written. -/
def kvHistory {Val : Type} (s : Store Val) (k : String) :
    Option (List (KVRec Val)) :=
  alistGet s.kv k

/-- Modelled from the spec: the State Cell's notion of current version — the
latest version record when it is not a tombstone. -/
def currentRec {Val : Type} (s : Store Val) (cell : String) :
    Option (KVRec Val) :=
  match (kvVersions s.kv cell).getLast? with
  | some r => if r.value.isSome then some r else none
  | none => none

/-- The current version number of a cell, when the cell has a current
(non-tombstoned) value. -/
def currentVersionNum {Val : Type} (s : Store Val) (cell : String) :
    Option Nat :=
  (currentRec s cell).map KVRec.version

/-- Modelled from the spec: `get(cell)` for the State Cell (same read as the
Version Store's `get`). -/
def stateGet {Val : Type} (s : Store Val) (cell : String) : Option Val :=
  kvGet s cell

/-- Modelled from the spec: `cas(cell, newValue, expectedVersion)` —
atomically compare the cell's current version to `expectedVersion`; on match
write `newValue` and return the new version number, on mismatch return
`null` (not an error) with no side effects. -/
def stateCas {Val : Type} (s : Store Val) (cell : String) (newVal : Val)
    (expected : Nat) : Option Nat × Store Val :=
  match currentVersionNum s cell with
  | some cur =>
      if expected = cur then (some s.nextVersion, applyW s (WOp.put cell newVal))
      else (none, s)
  | none => (none, s)

/-! #### Specification-side reading of a write trace (for refinement) -/

/-- Stamp each write of a trace with the version number and timestamp it
receives, starting from the given counters (each write advances both). -/
def stampFrom {Val : Type} (ver ts : Nat) :
    List (WOp Val) → List (WOp Val × Nat × Nat)
  | [] => []
  | w :: ws => (w, ver, ts) :: stampFrom (ver + 1) (ts + 1) ws

/-- The value a write leaves behind: the put value, or `none` for a
tombstone. -/
def wopValue {Val : Type} : WOp Val → Option Val
  | .put _ v => some v
  | .del _ => none

/-- The version record a stamped write appends. -/
def recOf {Val : Type} (x : WOp Val × Nat × Nat) : KVRec Val :=
  ⟨wopValue x.1, x.2.1, x.2.2⟩

/-- Modelled from the spec: the monotonicity law, read directly off the
spec's words — the value of the last write to `k` whose timestamp is at
most `T`, over the stamped trace, treating a tombstone as absent and an
empty window as `none`. -/
def specAsOf {Val : Type} (k : String) (T : Nat) (ws : List (WOp Val)) :
    Option Val :=
  (((stampFrom 1 1 ws).filter
      (fun x => decide (x.1.key = k) && decide (x.2.2 ≤ T))).getLast?).bind
    (fun x => wopValue x.1)

/-! ### Engine model: Branch Manager

Modelled from the spec (sections 3, 4.4, 9): an arena of branch records,
each owning its own instance of the versioned store, keyed by branch id,
plus the engine-wide current branch and counters. -/

/-- Modelled from the spec: operations exercising branch isolation — the
Version Store writes on the current branch, plus `createBranch` (empty, no
snapshot), `forkBranch` (logical snapshot of the current branch) and
`setBranch` (switch the current branch). -/
inductive BOp (Val : Type) where
  | put (key : String) (value : Val)
  | del (key : String)
  | createBranch (name : String)
  | forkBranch (dest : String)
  | setBranch (name : String)
deriving DecidableEq

/-- Whether an operation is a primitive write (hits the current branch's
data). -/
def BOp.isWrite {Val : Type} : BOp Val → Bool
  | .put _ _ => true
  | .del _ => true
  | _ => false

/-- Modelled from the spec: the engine state for branch operations — every
branch's own key entry map, the current branch, and the engine-wide version
counter and monotonic clock. -/
structure Engine (Val : Type) where
  branches : List (String × KVMap Val)
  current : String
  nextVersion : Nat
  clock : Nat
deriving DecidableEq

/-- Modelled from the spec: the initial engine — only the always-present
root branch `default`, which is also current. -/
def initEngine {Val : Type} : Engine Val := ⟨[("default", [])], "default", 1, 1⟩

/-- The key entry map a branch owns (empty when the branch is absent). -/
def dataOf {Val : Type} (e : Engine Val) (b : String) : KVMap Val :=
  (alistGet e.branches b).getD []

/-- Append a stamped record for key `k` into the current branch's data and
advance the counters. -/
def writeCur {Val : Type} (e : Engine Val) (k : String) (r : KVRec Val) :
    Engine Val :=
  { e with
    branches := alistSet e.branches e.current (kvmapPut (dataOf e e.current) k r),
    nextVersion := e.nextVersion + 1,
    clock := e.clock + 1 }

/-- Modelled from the spec: one engine step.  Writes are scoped to the
current branch; `createBranch` adds an empty branch (and is refused when the
name exists); `forkBranch` adds a branch holding a snapshot of the current
branch's data (and is refused when the destination exists); `setBranch`
switches only to an existing branch. -/
def applyB {Val : Type} (e : Engine Val) : BOp Val → Engine Val
  | .put k v => writeCur e k ⟨some v, e.nextVersion, e.clock⟩
  | .del k => writeCur e k ⟨none, e.nextVersion, e.clock⟩
  | .createBranch b =>
      if (alistGet e.branches b).isSome then e
      else { e with branches := e.branches ++ [(b, ([] : KVMap Val))] }
  | .forkBranch dest =>
      if (alistGet e.branches dest).isSome then e
      else { e with branches := e.branches ++ [(dest, dataOf e e.current)] }
  | .setBranch b =>
      if (alistGet e.branches b).isSome then { e with current := b } else e

/-- Run a branch-level trace from a given engine state. -/
def runBFrom {Val : Type} (e : Engine Val) (ops : List (BOp Val)) : Engine Val :=
  ops.foldl applyB e

/-- Run a branch-level trace from the initial engine. -/
def runB {Val : Type} (ops : List (BOp Val)) : Engine Val :=
  runBFrom initEngine ops

/-- Modelled from the spec: `get(key)` evaluated against a given branch's
data (the read `setBranch b` followed by `get k` performs). -/
def kvGetOn {Val : Type} (e : Engine Val) (b k : String) : Option Val :=
  ((kvVersions (dataOf e b) k).getLast?).bind KVRec.value

/-- Modelled from the spec: `getVersioned(key)` against a given branch —
the current value together with its version number and timestamp, `none`
for an absent or tombstoned key. -/
def kvGetVersionedOn {Val : Type} (e : Engine Val) (b k : String) :
    Option (KVRec Val) :=
  match (kvVersions (dataOf e b) k).getLast? with
  | some r => if r.value.isSome then some r else none
  | none => none

/-- Whether a trace, started in the given engine state, ever writes key `k`
while the current branch is `b` (tracking the current branch across
switches). -/
def writesKeyOn {Val : Type} (b k : String) :
    Engine Val → List (BOp Val) → Bool
  | _, [] => false
  | e, op :: rest =>
      (match op with
       | .put k' _ => decide (e.current = b) && decide (k' = k)
       | .del k' => decide (e.current = b) && decide (k' = k)
       | _ => false)
      || writesKeyOn b k (applyB e op) rest

/-! ### Engine model: Vector Index (validation path) -/

/-- Modelled from the spec: the classification of a JavaScript number as it
matters to vector validation — a finite real (magnitude abstracted to an
integer), NaN, or a signed infinity.  Floating-point arithmetic itself is
not modelled; only finiteness is consulted. -/
inductive JsNum where
  | finite (val : Int)
  | nan
  | posInf
  | negInf
deriving DecidableEq

/-- Whether a number is a finite real. -/
def JsNum.isFinite : JsNum → Bool
  | .finite _ => true
  | _ => false

/-- An error raised by the engine: its taxonomy category code and message
(the engine encodes these as a `[CODE] message` string at the boundary). -/
structure EngineError where
  code : String
  message : String
deriving DecidableEq

/-- Modelled from the spec: one stored vector entry — embedding, optional
metadata, version number and timestamp. -/
structure VecEntry (Val : Type) where
  embedding : List JsNum
  metadata : Option Val
  version : Nat
  timestamp : Nat
deriving DecidableEq

/-- Modelled from the spec: a collection — its fixed dimension and its
key-to-entry mapping (the metric plays no role in the claims settled here). -/
structure VecColl (Val : Type) where
  dimension : Nat
  entries : List (String × VecEntry Val)
deriving DecidableEq

/-- Modelled from the spec: the vector store — named collections plus the
version counter and clock. -/
structure VStore (Val : Type) where
  collections : List (String × VecColl Val)
  nextVersion : Nat
  clock : Nat
deriving DecidableEq

/-- Modelled from the spec: `upsert(collection, key, vector, metadata?)`.
An unknown collection is a not-found error; a NaN or infinite component is a
validation error raised before any state change; a dimension mismatch is a
constraint error; otherwise the entry is replaced and its version advances.
The state is returned alongside the result so that "no mutation on failure"
is an actual statement about the returned state. -/
def vectorUpsert {Val : Type} (s : VStore Val) (col key : String)
    (vec : List JsNum) (meta : Option Val) :
    Except EngineError Nat × VStore Val :=
  match alistGet s.collections col with
  | none => (Except.error ⟨"NOT_FOUND", "collection not found: " ++ col⟩, s)
  | some c =>
      if vec.all JsNum.isFinite then
        if vec.length = c.dimension then
          (Except.ok s.nextVersion,
           { s with
             collections := alistSet s.collections col
               ⟨c.dimension, alistSet c.entries key ⟨vec, meta, s.nextVersion, s.clock⟩⟩,
             nextVersion := s.nextVersion + 1,
             clock := s.clock + 1 })
        else (Except.error ⟨"CONSTRAINT", "dimension mismatch"⟩, s)
      else
        (Except.error ⟨"VALIDATION", "vector component is not a finite number"⟩, s)

/-- Modelled from the spec: `get(collection, key)` — the stored entry, or
`none` when the collection or key is absent. -/
def vectorGet {Val : Type} (s : VStore Val) (col key : String) :
    Option (VecEntry Val) :=
  (alistGet s.collections col).bind (fun c => alistGet c.entries key)

/-! ### Engine model: Transaction Coordinator (lifecycle) -/

/-- Modelled from the spec: the `Transaction` record — id, start time and
read-only flag (status is implicit: a stored record is the Active one). -/
structure TxnRec where
  id : Nat
  startedAt : Nat
  readOnly : Bool
deriving DecidableEq

/-- Modelled from the spec: the Transaction Coordinator's lifecycle state —
at most one active transaction per engine handle, plus the id counter, the
clock and the engine version counter `commit` reports. -/
structure TxnState where
  active : Option TxnRec
  nextTxnId : Nat
  clock : Nat
  nextVersion : Nat
deriving DecidableEq

/-- Modelled from the spec: `begin(readOnly?)` — a state error when a
transaction is already active (the state machine refuses nesting), otherwise
a fresh Active transaction. -/
def txnBegin (t : TxnState) (readOnly : Bool) :
    Except EngineError Unit × TxnState :=
  match t.active with
  | some _ => (Except.error ⟨"STATE", "transaction already active"⟩, t)
  | none =>
      (Except.ok (),
       { t with
         active := some ⟨t.nextTxnId, t.clock, readOnly⟩,
         nextTxnId := t.nextTxnId + 1,
         clock := t.clock + 1 })

/-- Modelled from the spec: `commit()` — applies the buffered writes and
returns the resulting version number, leaving no active transaction; a state
error when none is active. -/
def txnCommit (t : TxnState) : Except EngineError Nat × TxnState :=
  match t.active with
  | some _ =>
      (Except.ok t.nextVersion,
       { t with active := none, nextVersion := t.nextVersion + 1,
                clock := t.clock + 1 })
  | none => (Except.error ⟨"STATE", "no active transaction"⟩, t)

/-- Modelled from the spec: `rollback()` — discards the buffered writes,
leaving no active transaction; a state error when none is active. -/
def txnRollback (t : TxnState) : Except EngineError Unit × TxnState :=
  match t.active with
  | some _ => (Except.ok (), { t with active := none, clock := t.clock + 1 })
  | none => (Except.error ⟨"STATE", "no active transaction"⟩, t)

/-- Modelled from the spec: `txnIsActive()` — whether a transaction is in
the `Active` state. -/
def txnIsActive (t : TxnState) : Bool :=
  t.active.isSome

/-- Modelled from the spec: `txnInfo()` — the Active transaction's record,
`null` when no transaction is active. -/
def txnInfo (t : TxnState) : Option TxnRec :=
  t.active

/-! ## Theorems -/

/-! ### Generic helper lemmas -/

theorem str_data_append (a b : String) : (a ++ b).data = a.data ++ b.data := rfl

theorem str_ext (a b : String) (h : a.data = b.data) : a = b := by
  have h1 : a = String.mk a.data := rfl
  rw [h1, h]

theorem alistGet_set_self {β : Type} (m : List (String × β)) (k : String) (b : β) :
    alistGet (alistSet m k b) k = some b := by
  induction m with
  | nil => simp [alistSet, alistGet]
  | cons p rest ih =>
      obtain ⟨k', v⟩ := p
      by_cases h : k = k'
      · simp [alistSet, alistGet, h]
      · simp [alistSet, alistGet, h, ih]

theorem alistGet_set_other {β : Type} (m : List (String × β)) (k k2 : String)
    (b : β) (h : k2 ≠ k) : alistGet (alistSet m k b) k2 = alistGet m k2 := by
  induction m with
  | nil => simp [alistSet, alistGet, h]
  | cons p rest ih =>
      obtain ⟨k', v⟩ := p
      by_cases hk : k = k'
      · subst hk
        simp [alistSet, alistGet, h]
      · by_cases h2 : k2 = k'
        · simp [alistSet, alistGet, hk, h2]
        · simp [alistSet, alistGet, hk, h2, ih]

theorem alistGet_append_of_none {β : Type} (m l : List (String × β)) (k : String)
    (h : alistGet m k = none) : alistGet (m ++ l) k = alistGet l k := by
  induction m with
  | nil => rfl
  | cons p rest ih =>
      obtain ⟨k', v⟩ := p
      by_cases hk : k = k'
      · simp [alistGet, hk] at h
      · simp only [alistGet, hk, if_false, List.cons_append] at h ⊢
        exact ih h

theorem alistGet_append_of_some {β : Type} (m l : List (String × β)) (k : String)
    (v : β) (h : alistGet m k = some v) : alistGet (m ++ l) k = some v := by
  induction m with
  | nil => exact Option.noConfusion h
  | cons p rest ih =>
      obtain ⟨k', v'⟩ := p
      by_cases hk : k = k'
      · simp only [alistGet, hk, if_true] at h ⊢
        simpa using h
      · simp only [alistGet, hk, if_false, List.cons_append] at h ⊢
        exact ih h

theorem kvVersions_put_self {Val : Type} (m : KVMap Val) (k : String)
    (r : KVRec Val) : kvVersions (kvmapPut m k r) k = kvVersions m k ++ [r] := by
  simp [kvmapPut, kvVersions, alistGet_set_self]

theorem kvVersions_put_other {Val : Type} (m : KVMap Val) (k k2 : String)
    (r : KVRec Val) (h : k2 ≠ k) :
    kvVersions (kvmapPut m k r) k2 = kvVersions m k2 := by
  simp [kvmapPut, kvVersions, alistGet_set_other _ _ _ _ h]

theorem takeWhile_append_all {α : Type} (p : α → Bool) (l1 l2 : List α)
    (h : ∀ a ∈ l1, p a = true) :
    (l1 ++ l2).takeWhile p = l1 ++ l2.takeWhile p := by
  induction l1 with
  | nil => simp
  | cons a l ih =>
      have ha : p a = true := h a (List.mem_cons_self a l)
      simp only [List.cons_append, List.takeWhile_cons, ha, if_true]
      rw [ih fun x hx => h x (List.mem_cons_of_mem a hx)]

theorem dropWhile_append_all {α : Type} (p : α → Bool) (l1 l2 : List α)
    (h : ∀ a ∈ l1, p a = true) :
    (l1 ++ l2).dropWhile p = l2.dropWhile p := by
  induction l1 with
  | nil => simp
  | cons a l ih =>
      have ha : p a = true := h a (List.mem_cons_self a l)
      simp only [List.cons_append, List.dropWhile_cons, ha, if_true]
      exact ih fun x hx => h x (List.mem_cons_of_mem a hx)

theorem mem_takeWhile_sat {α : Type} (p : α → Bool) (l : List α) (a : α)
    (h : a ∈ l.takeWhile p) : p a = true := by
  induction l with
  | nil => simp [List.takeWhile] at h
  | cons b l ih =>
      rw [List.takeWhile_cons] at h
      by_cases hb : p b = true
      · rw [if_pos hb] at h
        rcases List.mem_cons.mp h with h1 | h2
        · rwa [h1]
        · exact ih h2
      · rw [if_neg hb] at h
        simp at h

theorem filter_map_swap {α β : Type} (f : α → β) (p : β → Bool) (l : List α) :
    (l.map f).filter p = (l.filter (fun a => p (f a))).map f := by
  induction l with
  | nil => rfl
  | cons a l ih =>
      by_cases ha : p (f a) = true
      · simp [List.filter_cons, ha, ih]
      · simp only [Bool.not_eq_true] at ha
        simp [List.filter_cons, ha, ih]

theorem filter_filter_own {α : Type} (p q : α → Bool) (l : List α) :
    (l.filter p).filter q = l.filter (fun a => p a && q a) := by
  induction l with
  | nil => rfl
  | cons a l ih =>
      by_cases hp : p a = true
      · by_cases hq : q a = true
        · simp [List.filter_cons, hp, hq, ih]
        · simp only [Bool.not_eq_true] at hq
          simp [List.filter_cons, hp, hq, ih]
      · simp only [Bool.not_eq_true] at hp
        simp [List.filter_cons, hp, ih]

theorem getLast?_map_own {α β : Type} (f : α → β) (l : List α) :
    (l.map f).getLast? = (l.getLast?).map f := by
  induction l with
  | nil => rfl
  | cons a l ih =>
      cases l with
      | nil => rfl
      | cons b l' =>
          simp only [List.map_cons] at ih ⊢
          rw [List.getLast?_cons_cons, List.getLast?_cons_cons]
          exact ih

theorem mem_of_getLast?_own {α : Type} (l : List α) (a : α)
    (h : l.getLast? = some a) : a ∈ l := by
  induction l with
  | nil => simp at h
  | cons b l ih =>
      cases l with
      | nil =>
          simp only [List.getLast?_singleton, Option.some.injEq] at h
          simp [h]
      | cons c l' =>
          rw [List.getLast?_cons_cons] at h
          exact List.mem_cons_of_mem b (ih h)

/-! ### Version Store: characterization of reachable stores -/

theorem stampFrom_map_fst {Val : Type} (v t : Nat) (ws : List (WOp Val)) :
    (stampFrom v t ws).map Prod.fst = ws := by
  induction ws generalizing v t with
  | nil => rfl
  | cons w ws ih => simp [stampFrom, ih]

theorem mem_stampFrom_version_bound {Val : Type} (v t : Nat)
    (ws : List (WOp Val)) (x : WOp Val × Nat × Nat) (h : x ∈ stampFrom v t ws) :
    v ≤ x.2.1 ∧ x.2.1 < v + ws.length := by
  induction ws generalizing v t with
  | nil => simp [stampFrom] at h
  | cons w ws ih =>
      rw [stampFrom] at h
      rcases List.mem_cons.mp h with h1 | h2
      · subst h1
        simp
      · have := ih (v + 1) (t + 1) h2
        constructor
        · omega
        · simpa [List.length_cons] using by omega

theorem pairwise_stampFrom {Val : Type} (v t : Nat) (ws : List (WOp Val)) :
    List.Pairwise (fun a b => a.2.1 < b.2.1) (stampFrom v t ws) := by
  induction ws generalizing v t with
  | nil => exact List.Pairwise.nil
  | cons w ws ih =>
      rw [stampFrom]
      refine List.Pairwise.cons ?_ (ih (v + 1) (t + 1))
      intro y hy
      have := (mem_stampFrom_version_bound (v + 1) (t + 1) ws y hy).1
      simpa using by omega

theorem runWFrom_cons {Val : Type} (s : Store Val) (w : WOp Val)
    (ws : List (WOp Val)) : runWFrom s (w :: ws) = runWFrom (applyW s w) ws := rfl

theorem applyW_nextVersion {Val : Type} (s : Store Val) (w : WOp Val) :
    (applyW s w).nextVersion = s.nextVersion + 1 := by
  cases w <;> rfl

theorem applyW_clock {Val : Type} (s : Store Val) (w : WOp Val) :
    (applyW s w).clock = s.clock + 1 := by
  cases w <;> rfl

theorem runWFrom_nextVersion {Val : Type} (ws : List (WOp Val)) (s : Store Val) :
    (runWFrom s ws).nextVersion = s.nextVersion + ws.length := by
  induction ws generalizing s with
  | nil => rfl
  | cons w ws ih =>
      rw [runWFrom_cons, ih, applyW_nextVersion]
      simp [List.length_cons]
      omega

/-- The key characterization: the version sequence a reachable store records
for a key is exactly the stamped subtrace of the writes to that key. -/
theorem kvVersions_runWFrom {Val : Type} (ws : List (WOp Val)) (s : Store Val)
    (k : String) :
    kvVersions (runWFrom s ws).kv k
      = kvVersions s.kv k
        ++ ((stampFrom s.nextVersion s.clock ws).filter
              (fun x => decide (x.1.key = k))).map recOf := by
  induction ws generalizing s with
  | nil => simp [runWFrom, stampFrom]
  | cons w ws ih =>
      rw [runWFrom_cons, ih (applyW s w), applyW_nextVersion, applyW_clock]
      cases w with
      | put k' v =>
          by_cases hk : k' = k
          · subst hk
            rw [show (applyW s (WOp.put k' v)).kv
                  = kvmapPut s.kv k' ⟨some v, s.nextVersion, s.clock⟩ from rfl]
            rw [kvVersions_put_self, stampFrom]
            rw [List.filter_cons_of_pos (by simp [WOp.key])]
            simp [recOf, wopValue, List.append_assoc]
          · rw [show (applyW s (WOp.put k' v)).kv
                  = kvmapPut s.kv k' ⟨some v, s.nextVersion, s.clock⟩ from rfl]
            rw [kvVersions_put_other _ _ _ _ (fun h => hk h.symm), stampFrom]
            rw [List.filter_cons_of_neg (by simp [WOp.key, hk])]
      | del k' =>
          by_cases hk : k' = k
          · subst hk
            rw [show (applyW s (WOp.del k')).kv
                  = kvmapPut s.kv k' ⟨none, s.nextVersion, s.clock⟩ from rfl]
            rw [kvVersions_put_self, stampFrom]
            rw [List.filter_cons_of_pos (by simp [WOp.key])]
            simp [recOf, wopValue, List.append_assoc]
          · rw [show (applyW s (WOp.del k')).kv
                  = kvmapPut s.kv k' ⟨none, s.nextVersion, s.clock⟩ from rfl]
            rw [kvVersions_put_other _ _ _ _ (fun h => hk h.symm), stampFrom]
            rw [List.filter_cons_of_neg (by simp [WOp.key, hk])]

theorem kvVersions_runW {Val : Type} (ws : List (WOp Val)) (k : String) :
    kvVersions (runW ws).kv k
      = ((stampFrom 1 1 ws).filter (fun x => decide (x.1.key = k))).map recOf := by
  rw [runW, kvVersions_runWFrom]
  rfl

theorem version_lt_next {Val : Type} (ws : List (WOp Val)) (k : String)
    (r : KVRec Val) (hr : r ∈ kvVersions (runW ws).kv k) :
    r.version < (runW ws).nextVersion := by
  rw [kvVersions_runW] at hr
  obtain ⟨x, hx, hxr⟩ := List.mem_map.mp hr
  have hx2 : x ∈ stampFrom 1 1 ws := List.mem_of_mem_filter hx
  have hb := (mem_stampFrom_version_bound 1 1 ws x hx2).2
  have hv : (runW ws).nextVersion = 1 + ws.length := by
    rw [runW, runWFrom_nextVersion]
    rfl
  rw [hv, ← hxr]
  simpa [recOf] using hb

theorem currentVersionNum_unpack {Val : Type} (s : Store Val) (cell : String)
    (cur : Nat) (h : currentVersionNum s cell = some cur) :
    ∃ r, r ∈ kvVersions s.kv cell ∧ r.version = cur := by
  unfold currentVersionNum currentRec at h
  split at h
  next r' hg =>
    split at h
    next hv =>
      simp only [Option.map_some', Option.some.injEq] at h
      exact ⟨r', mem_of_getLast?_own _ _ hg, h⟩
    next hv => simp at h
  next hg => simp at h

theorem stateGet_after_put {Val : Type} (s : Store Val) (cell : String)
    (v : Val) : stateGet (applyW s (WOp.put cell v)) cell = some v := by
  unfold stateGet kvGet
  rw [show (applyW s (WOp.put cell v)).kv
        = kvmapPut s.kv cell ⟨some v, s.nextVersion, s.clock⟩ from rfl]
  rw [kvVersions_put_self, List.getLast?_concat]
  rfl

theorem currentVersionNum_after_put {Val : Type} (s : Store Val) (cell : String)
    (v : Val) :
    currentVersionNum (applyW s (WOp.put cell v)) cell = some s.nextVersion := by
  unfold currentVersionNum currentRec
  rw [show (applyW s (WOp.put cell v)).kv
        = kvmapPut s.kv cell ⟨some v, s.nextVersion, s.clock⟩ from rfl]
  rw [kvVersions_put_self, List.getLast?_concat]
  rfl

/-! ### Claim C1 -/

/-- Claim C1: for every key `k` and timestamp `T`, `get(k, asOf = T)` over
any reachable single-context store returns the value of the last write to
`k` whose timestamp is at most `T` — with a tombstone at or before `T`
read as absent — and returns null when no write to `k` existed at or
before `T`, even if the key exists later. -/
theorem kvGetAsOf_eq_specAsOf {Val : Type} (ws : List (WOp Val)) (k : String)
    (T : Nat) : kvGetAsOf (runW ws) k T = specAsOf k T ws := by
  unfold kvGetAsOf specAsOf
  rw [kvVersions_runW, filter_map_swap, filter_filter_own]
  have hpred : (fun x : WOp Val × Nat × Nat =>
      decide (x.1.key = k) && decide ((recOf x).timestamp ≤ T))
      = fun x => decide (x.1.key = k) && decide (x.2.2 ≤ T) := rfl
  rw [hpred, getLast?_map_own]
  cases hlast : ((stampFrom 1 1 ws).filter
      (fun x => decide (x.1.key = k) && decide (x.2.2 ≤ T))).getLast? with
  | none => rfl
  | some x => rfl

/-- Claim C1 witness: a concrete trace evaluated at a timestamp inside the
written range. -/
theorem kvGetAsOf_eq_specAsOf_witness :
    kvGetAsOf (runW [WOp.put "k" (10 : Nat), WOp.del "k", WOp.put "k" 20])
        "k" 2
      = specAsOf "k" 2 [WOp.put "k" (10 : Nat), WOp.del "k", WOp.put "k" 20] :=
  kvGetAsOf_eq_specAsOf [WOp.put "k" (10 : Nat), WOp.del "k", WOp.put "k" 20]
    "k" 2

/-! ### Claim C2 -/

/-- Claim C2: over any reachable store, `stateCas(cell, newValue,
expectedVersion)` succeeds exactly when `expectedVersion` equals the cell's
current version; on success it returns a version strictly greater than the
previous one and the cell then holds `newValue` at that version; on
mismatch it returns null — not an error — and the state is completely
unchanged. -/
theorem stateCas_spec {Val : Type} (ws : List (WOp Val)) (cell : String)
    (newVal : Val) (expected : Nat) :
    ((stateCas (runW ws) cell newVal expected).1.isSome = true
        ↔ currentVersionNum (runW ws) cell = some expected)
    ∧ (currentVersionNum (runW ws) cell = some expected →
        (stateCas (runW ws) cell newVal expected).1
            = some (runW ws).nextVersion
        ∧ expected < (runW ws).nextVersion
        ∧ stateGet (stateCas (runW ws) cell newVal expected).2 cell
            = some newVal
        ∧ currentVersionNum (stateCas (runW ws) cell newVal expected).2 cell
            = some (runW ws).nextVersion)
    ∧ (currentVersionNum (runW ws) cell ≠ some expected →
        stateCas (runW ws) cell newVal expected = (none, runW ws)) := by
  cases hc : currentVersionNum (runW ws) cell with
  | none =>
      have hcas : stateCas (runW ws) cell newVal expected = (none, runW ws) := by
        simp [stateCas, hc]
      refine ⟨?_, ?_, ?_⟩
      · rw [hcas]
        simp
      · intro h
        exact Option.noConfusion h
      · intro _
        exact hcas
  | some cur =>
      by_cases he : expected = cur
      · subst he
        have hcas : stateCas (runW ws) cell newVal expected
            = (some (runW ws).nextVersion,
               applyW (runW ws) (WOp.put cell newVal)) := by
          simp [stateCas, hc]
        refine ⟨?_, ?_, ?_⟩
        · rw [hcas]
          simp
        · intro _
          obtain ⟨r, hrm, hrv⟩ := currentVersionNum_unpack _ _ _ hc
          have hlt := version_lt_next ws cell r hrm
          rw [hcas]
          exact ⟨rfl, by omega, stateGet_after_put _ _ _,
                 currentVersionNum_after_put _ _ _⟩
        · intro hne
          exact absurd rfl hne
      · have hcas : stateCas (runW ws) cell newVal expected = (none, runW ws) := by
          simp [stateCas, hc, he]
        refine ⟨?_, ?_, ?_⟩
        · rw [hcas]
          simp
          intro h
          exact absurd h.symm he
        · intro h
          rw [Option.some.injEq] at h
          exact absurd h.symm he
        · intro _
          exact hcas

/-- Claim C2 witness: the end-to-end State Cell scenario — one write, a
matching CAS that succeeds with a larger version, and the evaluated
mismatch branch. -/
theorem stateCas_spec_witness :
    currentVersionNum (runW [WOp.put "value" (1 : Nat)]) "value" = some 1
    ∧ (stateCas (runW [WOp.put "value" (1 : Nat)]) "value" 2 1).1 = some 2
    ∧ stateCas (runW [WOp.put "value" (1 : Nat)]) "value" 3 999
        = (none, runW [WOp.put "value" (1 : Nat)]) := by
  refine ⟨by decide, ?_, ?_⟩
  · have h := ((stateCas_spec [WOp.put "value" (1 : Nat)] "value" 2 1).2.1
      (by decide)).1
    exact h.trans (by decide)
  · exact (stateCas_spec [WOp.put "value" (1 : Nat)] "value" 3 999).2.2
      (by decide)

/-! ### Claim C3 -/

/-- Claim C3: over any reachable store, when a key `k` has no interleaved
deletes its history returns exactly the writes to `k`, in write order with
their put values; and — deletes allowed or not — the version numbers in a
key's history are strictly increasing, hence never reused, even across
delete and recreate. -/
theorem kvHistory_spec {Val : Type} (ws : List (WOp Val)) (k : String) :
    (WOp.del k ∉ ws →
        ((kvHistory (runW ws) k).getD []).map KVRec.value
            = (ws.filter (fun w => decide (w.key = k))).map wopValue
        ∧ ∀ o ∈ ((kvHistory (runW ws) k).getD []).map KVRec.value,
            o.isSome = true)
    ∧ List.Pairwise (fun a b => a < b)
        (((kvHistory (runW ws) k).getD []).map KVRec.version) := by
  have hkv : (kvHistory (runW ws) k).getD [] = kvVersions (runW ws).kv k := rfl
  have heq : ((kvHistory (runW ws) k).getD []).map KVRec.value
      = (ws.filter (fun w => decide (w.key = k))).map wopValue := by
    rw [hkv, kvVersions_runW, List.map_map]
    conv_rhs => rw [← stampFrom_map_fst 1 1 ws]
    rw [filter_map_swap, List.map_map]
    rfl
  constructor
  · intro hdel
    refine ⟨heq, ?_⟩
    intro o ho
    rw [heq] at ho
    obtain ⟨w, hw, hwv⟩ := List.mem_map.mp ho
    have hwmem : w ∈ ws := (List.mem_filter.mp hw).1
    have hkey : w.key = k := by
      have := (List.mem_filter.mp hw).2
      rwa [decide_eq_true_eq] at this
    cases w with
    | put k' v => rw [← hwv]; rfl
    | del k' =>
        exfalso
        apply hdel
        have : k' = k := hkey
        rw [← this]
        exact hwmem
  · rw [hkv, kvVersions_runW, List.map_map]
    refine List.pairwise_map.mpr ?_
    exact List.Pairwise.sublist (List.filter_sublist _) (pairwise_stampFrom 1 1 ws)

/-- Claim C3 witness: two writes to one key (and an unrelated delete) —
history holds exactly those two values with strictly increasing versions. -/
theorem kvHistory_spec_witness :
    (WOp.del "h" ∉ [WOp.put "h" (1 : Nat), WOp.put "h" 2, WOp.del "x"])
    ∧ ((kvHistory (runW [WOp.put "h" (1 : Nat), WOp.put "h" 2, WOp.del "x"])
          "h").getD []).map KVRec.value = [some 1, some 2] := by
  refine ⟨by decide, ?_⟩
  have h := ((kvHistory_spec [WOp.put "h" (1 : Nat), WOp.put "h" 2,
      WOp.del "x"] "h").1 (by decide)).1
  exact h.trans (by decide)

/-! ### Branch engine lemmas -/

theorem runBFrom_cons {Val : Type} (e : Engine Val) (op : BOp Val)
    (ops : List (BOp Val)) : runBFrom e (op :: ops) = runBFrom (applyB e op) ops :=
  rfl

theorem applyB_put {Val : Type} (e : Engine Val) (k : String) (v : Val) :
    applyB e (BOp.put k v) = writeCur e k ⟨some v, e.nextVersion, e.clock⟩ := rfl

theorem applyB_del {Val : Type} (e : Engine Val) (k : String) :
    applyB e (BOp.del k) = writeCur e k ⟨none, e.nextVersion, e.clock⟩ := rfl

theorem writeCur_branches {Val : Type} (e : Engine Val) (k : String)
    (r : KVRec Val) :
    (writeCur e k r).branches
      = alistSet e.branches e.current (kvmapPut (dataOf e e.current) k r) := rfl

theorem writeCur_current {Val : Type} (e : Engine Val) (k : String)
    (r : KVRec Val) : (writeCur e k r).current = e.current := rfl

theorem dataOf_writeCur_self {Val : Type} (e : Engine Val) (k : String)
    (r : KVRec Val) :
    dataOf (writeCur e k r) e.current = kvmapPut (dataOf e e.current) k r := by
  unfold dataOf
  rw [writeCur_branches, alistGet_set_self]
  rfl

theorem dataOf_writeCur_other {Val : Type} (e : Engine Val) (k : String)
    (r : KVRec Val) (b : String) (h : b ≠ e.current) :
    dataOf (writeCur e k r) b = dataOf e b := by
  unfold dataOf
  rw [writeCur_branches, alistGet_set_other _ _ _ _ h]

theorem applyB_create_none {Val : Type} (e : Engine Val) (b : String)
    (h : alistGet e.branches b = none) :
    (applyB e (BOp.createBranch b)).branches
        = e.branches ++ [(b, ([] : KVMap Val))]
    ∧ (applyB e (BOp.createBranch b)).current = e.current := by
  constructor <;> simp [applyB, h]

theorem applyB_create_some {Val : Type} (e : Engine Val) (b : String)
    (h : (alistGet e.branches b).isSome = true) :
    applyB e (BOp.createBranch b) = e := by
  simp [applyB, h]

theorem applyB_fork_none {Val : Type} (e : Engine Val) (b : String)
    (h : alistGet e.branches b = none) :
    (applyB e (BOp.forkBranch b)).branches
        = e.branches ++ [(b, dataOf e e.current)]
    ∧ (applyB e (BOp.forkBranch b)).current = e.current := by
  constructor <;> simp [applyB, h]

theorem applyB_fork_some {Val : Type} (e : Engine Val) (b : String)
    (h : (alistGet e.branches b).isSome = true) :
    applyB e (BOp.forkBranch b) = e := by
  simp [applyB, h]

theorem applyB_set_some {Val : Type} (e : Engine Val) (b : String)
    (h : (alistGet e.branches b).isSome = true) :
    (applyB e (BOp.setBranch b)).branches = e.branches
    ∧ (applyB e (BOp.setBranch b)).current = b := by
  constructor <;> simp [applyB, h]

theorem applyB_set_none {Val : Type} (e : Engine Val) (b : String)
    (h : alistGet e.branches b = none) :
    applyB e (BOp.setBranch b) = e := by
  simp [applyB, h]

theorem current_isSome_runBFrom {Val : Type} (ops : List (BOp Val))
    (e : Engine Val) (h : (alistGet e.branches e.current).isSome = true) :
    (alistGet (runBFrom e ops).branches (runBFrom e ops).current).isSome
      = true := by
  induction ops generalizing e with
  | nil => exact h
  | cons op rest ih =>
      rw [runBFrom_cons]
      apply ih
      cases op with
      | put k v =>
          rw [applyB_put, writeCur_branches, writeCur_current, alistGet_set_self]
          rfl
      | del k =>
          rw [applyB_del, writeCur_branches, writeCur_current, alistGet_set_self]
          rfl
      | createBranch b =>
          cases hb : alistGet e.branches b with
          | some d =>
              rw [applyB_create_some e b (by rw [hb]; rfl)]
              exact h
          | none =>
              obtain ⟨hbr, hcu⟩ := applyB_create_none e b hb
              rw [hbr, hcu]
              obtain ⟨d, hd⟩ := Option.isSome_iff_exists.mp h
              rw [alistGet_append_of_some _ _ _ _ hd]
              rfl
      | forkBranch b =>
          cases hb : alistGet e.branches b with
          | some d =>
              rw [applyB_fork_some e b (by rw [hb]; rfl)]
              exact h
          | none =>
              obtain ⟨hbr, hcu⟩ := applyB_fork_none e b hb
              rw [hbr, hcu]
              obtain ⟨d, hd⟩ := Option.isSome_iff_exists.mp h
              rw [alistGet_append_of_some _ _ _ _ hd]
              rfl
      | setBranch b =>
          cases hb : alistGet e.branches b with
          | some d =>
              obtain ⟨hbr, hcu⟩ := applyB_set_some e b (by rw [hb]; rfl)
              rw [hbr, hcu, hb]
              rfl
          | none =>
              rw [applyB_set_none e b hb]
              exact h

theorem writes_preserve {Val : Type} (ops : List (BOp Val)) (e : Engine Val)
    (b : String) (hw : ∀ op ∈ ops, op.isWrite = true) (hb : b ≠ e.current) :
    dataOf (runBFrom e ops) b = dataOf e b
    ∧ (runBFrom e ops).current = e.current := by
  induction ops generalizing e with
  | nil => exact ⟨rfl, rfl⟩
  | cons op rest ih =>
      rw [runBFrom_cons]
      have hopw : op.isWrite = true := hw op (List.mem_cons_self _ _)
      have hw' : ∀ o ∈ rest, o.isWrite = true :=
        fun o ho => hw o (List.mem_cons_of_mem _ ho)
      cases op with
      | put k v =>
          have h2 := ih (applyB e (BOp.put k v)) hw'
            (by rw [applyB_put, writeCur_current]; exact hb)
          refine ⟨?_, ?_⟩
          · rw [h2.1, applyB_put, dataOf_writeCur_other e k _ b hb]
          · rw [h2.2, applyB_put, writeCur_current]
      | del k =>
          have h2 := ih (applyB e (BOp.del k)) hw'
            (by rw [applyB_del, writeCur_current]; exact hb)
          refine ⟨?_, ?_⟩
          · rw [h2.1, applyB_del, dataOf_writeCur_other e k _ b hb]
          · rw [h2.2, applyB_del, writeCur_current]
      | createBranch c => simp [BOp.isWrite] at hopw
      | forkBranch c => simp [BOp.isWrite] at hopw
      | setBranch c => simp [BOp.isWrite] at hopw

theorem kvGetOn_preserved {Val : Type} (ops : List (BOp Val)) (e : Engine Val)
    (b k : String)
    (hnof : ∀ op ∈ ops, op ≠ BOp.forkBranch b)
    (hnw : writesKeyOn b k e ops = false) :
    kvGetOn (runBFrom e ops) b k = kvGetOn e b k := by
  induction ops generalizing e with
  | nil => rfl
  | cons op rest ih =>
      rw [runBFrom_cons]
      have hnof' : ∀ o ∈ rest, o ≠ BOp.forkBranch b :=
        fun o ho => hnof o (List.mem_cons_of_mem _ ho)
      simp only [writesKeyOn] at hnw
      have hsplit := Bool.or_eq_false_iff.mp hnw
      have hstep : kvGetOn (applyB e op) b k = kvGetOn e b k := by
        cases op with
        | put k' v =>
            have hh := hsplit.1
            by_cases hcb : e.current = b
            · have hk : k ≠ k' := by
                intro hkk
                simp [hcb, hkk] at hh
              unfold kvGetOn
              rw [← hcb, applyB_put, dataOf_writeCur_self,
                  kvVersions_put_other _ _ _ _ hk]
            · unfold kvGetOn
              rw [applyB_put, dataOf_writeCur_other e k' _ b
                    (fun hbe => hcb hbe.symm)]
        | del k' =>
            have hh := hsplit.1
            by_cases hcb : e.current = b
            · have hk : k ≠ k' := by
                intro hkk
                simp [hcb, hkk] at hh
              unfold kvGetOn
              rw [← hcb, applyB_del, dataOf_writeCur_self,
                  kvVersions_put_other _ _ _ _ hk]
            · unfold kvGetOn
              rw [applyB_del, dataOf_writeCur_other e k' _ b
                    (fun hbe => hcb hbe.symm)]
        | createBranch c =>
            cases hc : alistGet e.branches c with
            | some d => rw [applyB_create_some e c (by rw [hc]; rfl)]
            | none =>
                unfold kvGetOn dataOf
                rw [(applyB_create_none e c hc).1]
                cases hgb : alistGet e.branches b with
                | some d =>
                    rw [alistGet_append_of_some _ _ _ _ hgb]
                | none =>
                    rw [alistGet_append_of_none _ _ _ hgb]
                    by_cases hbc : b = c
                    · subst hbc
                      simp [alistGet]
                    · simp [alistGet, hbc]
        | forkBranch d =>
            have hd : BOp.forkBranch d ≠ BOp.forkBranch b :=
              hnof _ (List.mem_cons_self _ _)
            have hdb : b ≠ d := by
              intro h
              exact hd (by rw [h])
            cases hc : alistGet e.branches d with
            | some dd => rw [applyB_fork_some e d (by rw [hc]; rfl)]
            | none =>
                unfold kvGetOn dataOf
                rw [(applyB_fork_none e d hc).1]
                cases hgb : alistGet e.branches b with
                | some dd =>
                    rw [alistGet_append_of_some _ _ _ _ hgb]
                | none =>
                    rw [alistGet_append_of_none _ _ _ hgb]
                    simp [alistGet, hdb]
        | setBranch c =>
            cases hc : alistGet e.branches c with
            | some d =>
                unfold kvGetOn dataOf
                rw [(applyB_set_some e c (by rw [hc]; rfl)).1]
            | none => rw [applyB_set_none e c hc]
      rw [ih (applyB e op) hnof' hsplit.2, hstep]

/-! ### Claim C4 -/

/-- Claim C4: immediately after `forkBranch(B)` from branch `A`, every key
yields on `B` the same value and version as on `A` at fork time; and any
sequence of writes issued afterwards on `A` is invisible on `B`, while any
sequence of writes issued afterwards on `B` (after switching to it) is
invisible on `A`. -/
theorem forkBranch_spec {Val : Type} (t ws1 ws2 : List (BOp Val)) (B k : String)
    (hfresh : alistGet (runB t).branches B = none)
    (hw1 : ∀ op ∈ ws1, op.isWrite = true)
    (hw2 : ∀ op ∈ ws2, op.isWrite = true) :
    kvGetVersionedOn (applyB (runB t) (BOp.forkBranch B)) B k
        = kvGetVersionedOn (runB t) (runB t).current k
    ∧ kvGetVersionedOn (runBFrom (applyB (runB t) (BOp.forkBranch B)) ws1) B k
        = kvGetVersionedOn (applyB (runB t) (BOp.forkBranch B)) B k
    ∧ kvGetVersionedOn
          (runBFrom
            (applyB (applyB (runB t) (BOp.forkBranch B)) (BOp.setBranch B)) ws2)
          (runB t).current k
        = kvGetVersionedOn (applyB (runB t) (BOp.forkBranch B))
            (runB t).current k := by
  have hcur : (alistGet (runB t).branches (runB t).current).isSome = true :=
    current_isSome_runBFrom t initEngine rfl
  have hBA : B ≠ (runB t).current := by
    intro h
    rw [← h, hfresh] at hcur
    exact Bool.noConfusion hcur
  obtain ⟨hbrF, hcuF⟩ := applyB_fork_none (runB t) B hfresh
  have hdataB : dataOf (applyB (runB t) (BOp.forkBranch B)) B
      = dataOf (runB t) (runB t).current := by
    unfold dataOf
    rw [hbrF, alistGet_append_of_none _ _ _ hfresh]
    simp [alistGet, dataOf]
  refine ⟨?_, ?_, ?_⟩
  · unfold kvGetVersionedOn
    rw [hdataB]
  · have hp := writes_preserve ws1 (applyB (runB t) (BOp.forkBranch B)) B hw1
      (by rw [hcuF]; exact hBA)
    unfold kvGetVersionedOn
    rw [hp.1]
  · have hBsome : (alistGet (applyB (runB t) (BOp.forkBranch B)).branches
        B).isSome = true := by
      rw [hbrF, alistGet_append_of_none _ _ _ hfresh]
      simp [alistGet]
    obtain ⟨hbrS, hcuS⟩ :=
      applyB_set_some (applyB (runB t) (BOp.forkBranch B)) B hBsome
    have hp2 := writes_preserve ws2
      (applyB (applyB (runB t) (BOp.forkBranch B)) (BOp.setBranch B))
      (runB t).current hw2
      (by rw [hcuS]; exact fun h => hBA h.symm)
    unfold kvGetVersionedOn
    rw [hp2.1]
    unfold dataOf
    rw [hbrS]

/-- Claim C4 witness: the fork scenario of the test suite — one key on the
source branch, a fork, then disjoint writes on each side. -/
theorem forkBranch_spec_witness :
    alistGet (runB [BOp.put "shared" (1 : Nat)]).branches "forked" = none
    ∧ kvGetVersionedOn
          (applyB (runB [BOp.put "shared" (1 : Nat)]) (BOp.forkBranch "forked"))
          "forked" "shared"
        = kvGetVersionedOn (runB [BOp.put "shared" (1 : Nat)])
            (runB [BOp.put "shared" (1 : Nat)]).current "shared" := by
  refine ⟨by decide, ?_⟩
  exact (forkBranch_spec [BOp.put "shared" (1 : Nat)]
    [BOp.put "other" (2 : Nat)] [BOp.put "shared" (3 : Nat)] "forked" "shared"
    (by decide) (by decide) (by decide)).1

/-! ### Claim C5 -/

/-- Claim C5: branch isolation — after writing key `k` on the current
branch, a distinct branch `B` that is never forked into and never itself
writes `k` observes exactly what it observed before the write; in
particular, when `k` was absent on `B` it stays absent (`get` is null),
so no write on one branch affects the observable state of another. -/
theorem branchIsolation_spec {Val : Type} (t t2 : List (BOp Val)) (k : String)
    (v : Val) (B : String)
    (hB : B ≠ (runB t).current)
    (hnof : ∀ op ∈ t2, op ≠ BOp.forkBranch B)
    (hnw : writesKeyOn B k (applyB (runB t) (BOp.put k v)) t2 = false) :
    kvGetOn (runBFrom (applyB (runB t) (BOp.put k v)) t2) B k
        = kvGetOn (runB t) B k
    ∧ (kvGetOn (runB t) B k = none →
        kvGetOn (runBFrom (applyB (runB t) (BOp.put k v)) t2) B k = none) := by
  have hstep : kvGetOn (applyB (runB t) (BOp.put k v)) B k
      = kvGetOn (runB t) B k := by
    unfold kvGetOn
    rw [applyB_put, dataOf_writeCur_other _ _ _ _ hB]
  have hmain := kvGetOn_preserved t2 (applyB (runB t) (BOp.put k v)) B k hnof hnw
  refine ⟨hmain.trans hstep, fun hnone => ?_⟩
  rw [hmain.trans hstep]
  exact hnone

/-- Claim C5 witness: the switch scenario of the test suite — a fresh
branch, a write of the key on `default`, a switch to the fresh branch and
an unrelated write there; the key reads as null on the fresh branch. -/
theorem branchIsolation_spec_witness :
    kvGetOn (runB ([BOp.createBranch "feature"] : List (BOp Nat)))
        "feature" "x" = none
    ∧ kvGetOn
        (runBFrom
          (applyB (runB ([BOp.createBranch "feature"] : List (BOp Nat)))
            (BOp.put "x" (1 : Nat)))
          [BOp.setBranch "feature", BOp.put "y" (2 : Nat)])
        "feature" "x" = none := by
  refine ⟨by decide, ?_⟩
  exact (branchIsolation_spec [BOp.createBranch "feature"]
    [BOp.setBranch "feature", BOp.put "y" (2 : Nat)] "x" (1 : Nat) "feature"
    (by decide) (by decide) (by decide)).2 (by decide)


/-! ### Regex-match lemmas for the error layer -/

theorem data_lbracket : ("[" : String).data = ['['] := rfl

theorem data_rbracket : ("]" : String).data = [']'] := rfl

theorem data_space : (" " : String).data = [' '] := rfl

theorem matchCodeTag_decompose (code rest : String)
    (h1 : code.data ≠ []) (h2 : ∀ ch ∈ code.data, isCodeChar ch = true) :
    matchCodeTag ("[" ++ code ++ "]" ++ rest)
      = some (code, String.mk (rest.data.dropWhile isJsSpace)) := by
  have hdata : ("[" ++ code ++ "]" ++ rest).data
      = '[' :: (code.data ++ (']' :: rest.data)) := by
    simp [str_data_append, data_lbracket, data_rbracket]
  have htw : (code.data ++ (']' :: rest.data)).takeWhile isCodeChar
      = code.data := by
    rw [takeWhile_append_all isCodeChar code.data _ h2, List.takeWhile_cons]
    simp [isCodeChar]
  have hdw : (code.data ++ (']' :: rest.data)).dropWhile isCodeChar
      = ']' :: rest.data := by
    rw [dropWhile_append_all isCodeChar code.data _ h2, List.dropWhile_cons]
    simp [isCodeChar]
  have hne : code.data.isEmpty = false := by
    cases hcd : code.data with
    | nil => exact absurd hcd h1
    | cons a l => rfl
  unfold matchCodeTag
  rw [hdata]
  simp only [parseCodeTag, if_pos rfl, htw, hdw, hne]
  rfl

theorem matchCodeTag_some_decompose (msg c r : String)
    (h : matchCodeTag msg = some (c, r)) :
    c.data ≠ [] ∧ (∀ ch ∈ c.data, isCodeChar ch = true)
      ∧ ∃ rest : String, msg = "[" ++ c ++ "]" ++ rest
          ∧ r = String.mk (rest.data.dropWhile isJsSpace) := by
  unfold matchCodeTag parseCodeTag at h
  split at h
  · exact Option.noConfusion h
  next ch cs hm =>
    split at h
    next hch =>
      subst hch
      split at h
      next hemp => exact Option.noConfusion h
      next hemp =>
        split at h
        next hd => exact Option.noConfusion h
        next d tail hd =>
          split at h
          next hdc =>
            subst hdc
            rw [Option.some.injEq, Prod.mk.injEq] at h
            obtain ⟨hc, hr⟩ := h
            have hcd : c.data = cs.takeWhile isCodeChar := by
              rw [← hc]
            refine ⟨?_, ?_, String.mk tail, ?_, hr.symm⟩
            · rw [hcd]
              intro hnil
              apply hemp
              rw [hnil]
              rfl
            · intro ch2 hch2
              rw [hcd] at hch2
              exact mem_takeWhile_sat _ _ _ hch2
            · apply str_ext
              rw [hm]
              have hcs : cs = c.data ++ (']' :: tail) := by
                rw [hcd]
                have hsplit2 := (List.takeWhile_append_dropWhile
                  (p := isCodeChar) (l := cs)).symm
                rw [hd] at hsplit2
                exact hsplit2
              rw [hcs]
              simp [str_data_append, data_lbracket, data_rbracket]
          next hdc => exact Option.noConfusion h
    next hch => exact Option.noConfusion h

theorem ERROR_MAP_eq_none_iff (code : String) :
    ERROR_MAP code = none ↔ code ∉ knownCodes := by
  unfold ERROR_MAP knownCodes
  split_ifs with h1 h2 h3 h4 h5 h6 h7 <;> simp_all

theorem ERROR_MAP_message (code : String) (mk : String → StrataError)
    (h : ERROR_MAP code = some mk) (m : String) : (mk m).message = m := by
  unfold ERROR_MAP at h
  split_ifs at h <;>
    (injection h with h'
     subst h'
     rfl)

theorem toTypedError_matched (err : NativeError) (code r0 : String)
    (h : matchCodeTag (resolveMessage err) = some (code, r0)) :
    toTypedError err
      = (match ERROR_MAP code with
         | some mk => mk r0
         | none => mkStrataError r0 code) := by
  simp only [toTypedError]
  rw [h]

theorem toTypedError_unmatched (err : NativeError)
    (h : matchCodeTag (resolveMessage err) = none) :
    toTypedError err = mkStrataError (resolveMessage err) "UNKNOWN" := by
  simp only [toTypedError]
  rw [h]

/-! ### Claim C6 -/

/-- Claim C6: for every engine error whose message carries one of the seven
taxonomy categories as its `[CODE]` prefix, `toTypedError` deterministically
reconstructs the corresponding typed error: its machine-readable `code`
field equals the category, its class is the one mapped to the category, and
the category lives in its own field, separate from the human-readable
message (which is the original text with the prefix stripped). -/
theorem toTypedError_category_spec (c rest name : String)
    (hc : c ∈ knownCodes) :
    (toTypedError ⟨name, "[" ++ c ++ "] " ++ rest⟩).code = c
    ∧ (toTypedError ⟨name, "[" ++ c ++ "] " ++ rest⟩).name = classNameOf c
    ∧ (toTypedError ⟨name, "[" ++ c ++ "] " ++ rest⟩).message
        = String.mk (rest.data.dropWhile isJsSpace) := by
  have hmsg : ("[" ++ c ++ "] " ++ rest : String)
      = "[" ++ c ++ "]" ++ (" " ++ rest) := by
    apply str_ext
    simp [str_data_append, data_lbracket, data_rbracket, data_space]
  have hne : ("[" ++ c ++ "] " ++ rest : String) ≠ "" := by
    intro hcontra
    have hh := congrArg String.data hcontra
    simp [str_data_append, data_lbracket] at hh
  have hres : resolveMessage ⟨name, "[" ++ c ++ "] " ++ rest⟩
      = "[" ++ c ++ "] " ++ rest := by
    unfold resolveMessage
    rw [if_neg hne]
  have hdw : ((" " ++ rest : String).data).dropWhile isJsSpace
      = rest.data.dropWhile isJsSpace := by
    have hsp : (" " ++ rest : String).data = ' ' :: rest.data := by
      simp [str_data_append, data_space]
    rw [hsp, List.dropWhile_cons]
    simp [isJsSpace]
  have hmt : matchCodeTag (resolveMessage ⟨name, "[" ++ c ++ "] " ++ rest⟩)
      = some (c, String.mk (rest.data.dropWhile isJsSpace)) := by
    rw [hres, hmsg]
    rw [matchCodeTag_decompose c (" " ++ rest)
      (by
        intro hnil
        simp [knownCodes] at hc
        rcases hc with rfl | rfl | rfl | rfl | rfl | rfl | rfl <;>
          exact absurd hnil (by decide))
      (by
        intro ch hch
        simp [knownCodes] at hc
        rcases hc with rfl | rfl | rfl | rfl | rfl | rfl | rfl <;>
          (revert ch
           decide))]
    rw [hdw]
  rw [toTypedError_matched _ _ _ hmt]
  simp [knownCodes] at hc
  rcases hc with rfl | rfl | rfl | rfl | rfl | rfl | rfl <;>
    exact ⟨rfl, rfl, rfl⟩

/-- Claim C6 witness: the `NOT_FOUND` category on a concrete message. -/
theorem toTypedError_category_spec_witness :
    ("NOT_FOUND" ∈ knownCodes)
    ∧ (toTypedError ⟨"Error", "[" ++ "NOT_FOUND" ++ "] " ++ "key missing"⟩).code
        = "NOT_FOUND" := by
  refine ⟨by decide, ?_⟩
  exact (toTypedError_category_spec "NOT_FOUND" "key missing" "Error"
    (by decide)).1

/-! ### Claim C9 -/

/-- Claim C9 counterexample: for a native error with an empty message (a
plain `new Error()`), the claim predicts a generic `StrataError` with code
`"UNKNOWN"` carrying the original message (the empty string); the code
instead parses `err.message || String(err)`, so the produced message is the
error's string form `"Error"`, not the original message. -/
theorem toTypedError_empty_message_cex :
    (toTypedError ⟨"Error", ""⟩).code = "UNKNOWN"
    ∧ (toTypedError ⟨"Error", ""⟩).message = "Error"
    ∧ (toTypedError ⟨"Error", ""⟩).message
        ≠ (⟨"Error", ""⟩ : NativeError).message := by
  refine ⟨rfl, rfl, ?_⟩
  intro h
  have hh := congrArg String.data h
  exact List.noConfusion hh

/-- Claim C9 as amended: `toTypedError` operates on the resolved message
`err.message || String(err)`.  If the resolved message matches the prefix
pattern with a code made of uppercase letters and underscores that is not
one of the seven known categories, it returns a generic `StrataError`
carrying that code verbatim, with the message stripped of the bracketed
prefix and following whitespace; if the resolved message has no such
prefix, it returns a generic `StrataError` with code `"UNKNOWN"` and the
resolved message — which for an empty or missing original message is the
error's string form, not the original message; and in every
recognized-prefix case the resulting message is the resolved message with
the bracketed prefix and following whitespace stripped. -/
theorem toTypedError_parse_spec (err : NativeError) :
    (∀ code rest : String, code.data ≠ [] →
        (∀ ch ∈ code.data, isCodeChar ch = true) →
        code ∉ knownCodes →
        resolveMessage err = "[" ++ code ++ "]" ++ rest →
        toTypedError err
          = mkStrataError (String.mk (rest.data.dropWhile isJsSpace)) code)
    ∧ ((∀ code rest : String, ¬(code.data ≠ []
          ∧ (∀ ch ∈ code.data, isCodeChar ch = true)
          ∧ resolveMessage err = "[" ++ code ++ "]" ++ rest)) →
        toTypedError err = mkStrataError (resolveMessage err) "UNKNOWN")
    ∧ (∀ code rest : String, code.data ≠ [] →
        (∀ ch ∈ code.data, isCodeChar ch = true) →
        resolveMessage err = "[" ++ code ++ "]" ++ rest →
        (toTypedError err).message
          = String.mk (rest.data.dropWhile isJsSpace)) := by
  refine ⟨?_, ?_, ?_⟩
  · intro code rest h1 h2 hunk hmsg
    have hmt : matchCodeTag (resolveMessage err)
        = some (code, String.mk (rest.data.dropWhile isJsSpace)) := by
      rw [hmsg]
      exact matchCodeTag_decompose _ _ h1 h2
    rw [toTypedError_matched _ _ _ hmt,
        (ERROR_MAP_eq_none_iff code).mpr hunk]
  · intro hno
    cases hm : matchCodeTag (resolveMessage err) with
    | none => exact toTypedError_unmatched _ hm
    | some p =>
        obtain ⟨c2, r2⟩ := p
        obtain ⟨hne, hall, rest2, hdec, hr2⟩ :=
          matchCodeTag_some_decompose _ _ _ hm
        exact absurd ⟨hne, hall, hdec⟩ (hno c2 rest2)
  · intro code rest h1 h2 hmsg
    have hmt : matchCodeTag (resolveMessage err)
        = some (code, String.mk (rest.data.dropWhile isJsSpace)) := by
      rw [hmsg]
      exact matchCodeTag_decompose _ _ h1 h2
    rw [toTypedError_matched _ _ _ hmt]
    cases hEM : ERROR_MAP code with
    | none => rfl
    | some mk => exact ERROR_MAP_message code mk hEM _

/-- Claim C9 witness: an unrecognized uppercase code is kept verbatim and
the whitespace after the bracket is stripped from the message. -/
theorem toTypedError_parse_spec_witness :
    toTypedError ⟨"Error", "[" ++ "MY_CODE" ++ "]" ++ "  boom"⟩
      = mkStrataError "boom" "MY_CODE" := by
  have h := (toTypedError_parse_spec
      ⟨"Error", "[" ++ "MY_CODE" ++ "]" ++ "  boom"⟩).1
    "MY_CODE" "  boom" (by decide) (by decide) (by decide) (by decide)
  exact h.trans (by decide)

/-! ### Claim C10 -/

/-- Claim C10: every method of the wrapped prototype (every own method
except `constructor`) is replaced under its own name by its `wrapMethod`
version; for any arguments, a success of the native method is forwarded
unchanged, a failure surfaces as exactly `toTypedError` of the native
error, and every error the wrapped method produces is `toTypedError` of a
native error — never the raw native error.  The `Strata.open`,
`Strata.cache` and `setup` wrappers are the same `wrapMethod` combinator,
so the same facts cover them. -/
theorem wrappedMethods_spec {α β : Type}
    (proto : List (String × (α → Except NativeError β)))
    (name : String) (f : α → Except NativeError β) (args : α)
    (hmem : (name, f) ∈ proto) (hname : name ≠ "constructor") :
    (name, wrapMethod f) ∈ wrapProto proto
    ∧ (∀ b, f args = Except.ok b → wrapMethod f args = Except.ok b)
    ∧ (∀ e, f args = Except.error e →
        wrapMethod f args = Except.error (toTypedError e))
    ∧ (∀ e', wrapMethod f args = Except.error e' →
        ∃ e, f args = Except.error e ∧ e' = toTypedError e) := by
  refine ⟨?_, ?_, ?_, ?_⟩
  · unfold wrapProto
    refine List.mem_map.mpr ⟨(name, f), ?_, rfl⟩
    refine List.mem_filter.mpr ⟨hmem, ?_⟩
    exact decide_eq_true hname
  · intro b hb
    unfold wrapMethod
    rw [hb]
  · intro e he
    unfold wrapMethod
    rw [he]
  · intro e' he'
    unfold wrapMethod at he'
    cases hf : f args with
    | ok b => rw [hf] at he'; exact Except.noConfusion he'
    | error e =>
        rw [hf] at he'
        refine ⟨e, rfl, ?_⟩
        have := Except.error.inj he'
        exact this.symm

/-- Claim C10 witness: a one-method prototype whose method rejects with a
tagged native error; the wrapped method throws the typed error. -/
theorem wrappedMethods_spec_witness :
    wrapMethod (fun _ : Nat =>
        (Except.error ⟨"Error", "[NOT_FOUND] nope"⟩ : Except NativeError Nat)) 0
      = Except.error (toTypedError ⟨"Error", "[NOT_FOUND] nope"⟩) := by
  have h := wrappedMethods_spec
    [("kvGet", fun _ : Nat =>
        (Except.error ⟨"Error", "[NOT_FOUND] nope"⟩ : Except NativeError Nat))]
    "kvGet"
    (fun _ : Nat =>
        (Except.error ⟨"Error", "[NOT_FOUND] nope"⟩ : Except NativeError Nat))
    0 (List.mem_singleton.mpr rfl) (by decide)
  exact h.2.2.1 ⟨"Error", "[NOT_FOUND] nope"⟩ rfl

/-! ### Claim C7 -/

/-- Claim C7: for every collection (that exists) and key, `vectorUpsert`
with a vector containing any NaN or infinite component fails with a
validation error before any state mutation: the returned state is the
input state unchanged, so a subsequent `vectorGet` for that key returns
exactly what it returned before the failed upsert. -/
theorem vectorUpsert_nonfinite_spec {Val : Type} (s : VStore Val)
    (col key : String) (vec : List JsNum) (meta : Option Val)
    (hcol : (alistGet s.collections col).isSome = true)
    (hbad : ∃ c ∈ vec, c.isFinite = false) :
    (vectorUpsert s col key vec meta).1
        = Except.error ⟨"VALIDATION", "vector component is not a finite number"⟩
    ∧ (vectorUpsert s col key vec meta).2 = s
    ∧ vectorGet (vectorUpsert s col key vec meta).2 col key
        = vectorGet s col key := by
  obtain ⟨c, hcm⟩ := Option.isSome_iff_exists.mp hcol
  have hall : vec.all JsNum.isFinite = false := by
    obtain ⟨x, hx, hxf⟩ := hbad
    cases hv : vec.all JsNum.isFinite with
    | false => rfl
    | true =>
        have := List.all_eq_true.mp hv x hx
        rw [hxf] at this
        exact Bool.noConfusion this
  unfold vectorUpsert
  rw [hcm, hall]
  exact ⟨rfl, rfl, rfl⟩

/-- Claim C7 witness: the NaN-rejection test scenario — a collection of
dimension 4 and an upsert whose vector carries a NaN component leaves the
store untouched. -/
theorem vectorUpsert_nonfinite_spec_witness :
    ((alistGet ((⟨[("nan_test", ⟨4, []⟩)], 1, 1⟩ : VStore Nat)).collections
        "nan_test").isSome = true)
    ∧ (vectorUpsert (⟨[("nan_test", ⟨4, []⟩)], 1, 1⟩ : VStore Nat) "nan_test"
          "k" [JsNum.finite 1, JsNum.nan, JsNum.finite 0, JsNum.finite 0]
          none).2
        = (⟨[("nan_test", ⟨4, []⟩)], 1, 1⟩ : VStore Nat) := by
  refine ⟨by decide, ?_⟩
  exact (vectorUpsert_nonfinite_spec (⟨[("nan_test", ⟨4, []⟩)], 1, 1⟩ : VStore Nat)
    "nan_test" "k" [JsNum.finite 1, JsNum.nan, JsNum.finite 0, JsNum.finite 0]
    none (by decide) (by decide)).2.1

/-! ### Claim C8 -/

/-- Claim C8: `begin()` fails with a state error exactly when a transaction
is already active; after `commit()` or `rollback()`, `txnIsActive()` is
false; and `txnInfo()` is null whenever no transaction is active. -/
theorem txnLifecycle_spec (t : TxnState) (ro : Bool) :
    ((∃ m, (txnBegin t ro).1 = Except.error ⟨"STATE", m⟩)
        ↔ txnIsActive t = true)
    ∧ txnIsActive (txnCommit t).2 = false
    ∧ txnIsActive (txnRollback t).2 = false
    ∧ (txnIsActive t = false → txnInfo t = none) := by
  cases ht : t.active with
  | none =>
      refine ⟨?_, ?_, ?_, ?_⟩
      · constructor
        · intro ⟨m, hm⟩
          unfold txnBegin at hm
          rw [ht] at hm
          exact Except.noConfusion hm
        · intro h
          unfold txnIsActive at h
          rw [ht] at h
          exact Bool.noConfusion h
      · simp [txnCommit, txnIsActive, ht]
      · simp [txnRollback, txnIsActive, ht]
      · intro _
        unfold txnInfo
        rw [ht]
  | some rec =>
      refine ⟨?_, ?_, ?_, ?_⟩
      · constructor
        · intro _
          unfold txnIsActive
          rw [ht]
          rfl
        · intro _
          refine ⟨"transaction already active", ?_⟩
          unfold txnBegin
          rw [ht]
      · simp [txnCommit, txnIsActive, ht]
      · simp [txnRollback, txnIsActive, ht]
      · intro h
        unfold txnIsActive at h
        rw [ht] at h
        exact Bool.noConfusion h

/-- Claim C8 witness: with a transaction active, `begin` fails with a state
error and `commit` leaves no active transaction. -/
theorem txnLifecycle_spec_witness :
    txnIsActive
        (txnCommit (⟨some ⟨1, 5, false⟩, 2, 6, 10⟩ : TxnState)).2 = false
    ∧ ((∃ m, (txnBegin (⟨some ⟨1, 5, false⟩, 2, 6, 10⟩ : TxnState) false).1
          = Except.error ⟨"STATE", m⟩)
        ↔ txnIsActive (⟨some ⟨1, 5, false⟩, 2, 6, 10⟩ : TxnState) = true) := by
  refine ⟨?_, ?_⟩
  · exact (txnLifecycle_spec (⟨some ⟨1, 5, false⟩, 2, 6, 10⟩ : TxnState)
      false).2.1
  · exact (txnLifecycle_spec (⟨some ⟨1, 5, false⟩, 2, 6, 10⟩ : TxnState)
      false).1

end StrataNode
